import Mathlib

/-!
Verification of the didp-rust-models repository against its specification.

Each namespace shallowly embeds one crate of the repository:
* `IoUtil` embeds `src/io-util/src/lib.rs` (`run_solver_and_dump_solution_history`);
* `Tsptw` embeds `src/tsptw/src/lib.rs` (`validate_inner`, `simplify`);
* `BinPacking`, `GraphClear`, `GolombRuler`, `Misp` embed the corresponding
  `validate` functions;
* `Cli` embeds the clap `Args` declaration shared by the binaries.

Rust `i32`/`usize` values are modelled as `Int`/`Nat`; the claims under
consideration do not exercise machine-integer overflow.  Fallible I/O is
modelled by explicit `Except` oracles, and the file sink by a trace of events.
-/

namespace IoUtil

/-- The fields of `dypdl_heuristic_search::Solution` used by
`run_solver_and_dump_solution_history`.  `time` is an `f64` in Rust and is
only ever displayed, so it is modelled by its rendered string; `transitions`
is modelled by the list of the transitions' full names. -/
structure Solution where
  cost : Option Int
  best_bound : Option Int
  transitions : List String
  time : String
  expanded : Nat
  generated : Nat
deriving DecidableEq, Repr

/-- `join " "` over the transition names, as in
`solution.transitions.iter().map(|t| t.get_full_name()).collect::<Vec<_>>().join(" ")`. -/
def joinTransitions (l : List String) : String :=
  String.intercalate " " l

/-- The history line built by `run_solver_and_dump_solution_history` for a
solution whose `cost` is `Some cost`: the two `format!` branches of the
source, depending on whether `best_bound` is present. -/
def formatLine (s : Solution) (cost : Int) : String :=
  match s.best_bound with
  | some bound =>
      s.time ++ ", " ++ toString cost ++ ", " ++ toString bound ++ ", " ++
        joinTransitions s.transitions ++ ", " ++ toString s.expanded ++ ", " ++
        toString s.generated ++ "\n"
  | none =>
      s.time ++ ", " ++ toString cost ++ ", , " ++
        joinTransitions s.transitions ++ ", " ++ toString s.expanded ++ ", " ++
        toString s.generated ++ "\n"

/-- Errors returned by the environment (file open, `search_next`, write,
flush); the concrete payload is irrelevant. -/
abbrev Err := String

/-- One observable operation on the history sink. -/
inductive SinkEvent where
  | write (line : String)
  | flush
deriving DecidableEq, Repr

/-- Outcome of running the driver loop: the successful sink operations in
order, the number of `search_next` calls performed, and the result
(`Except.ok (some s)` for a normal return with solution `s`; `Except.ok none`
when the supplied finite stream was exhausted before termination;
`Except.error e` when an operation failed and the error was propagated). -/
structure RunResult where
  events : List SinkEvent
  calls : Nat
  result : Except Err (Option Solution)
deriving Repr

/-- The body of the `loop` in `run_solver_and_dump_solution_history`.
`stream` gives the successive results of `solver.search_next()`; `w i` and
`f i` give the results of the `i`-th `file.write_all` and `file.flush`
(counted from the current position; on recursion the oracles are shifted). -/
def runLoop : List (Except Err (Solution × Bool)) → (Nat → Except Err Unit) →
    (Nat → Except Err Unit) → RunResult
  | [], _, _ => ⟨[], 0, .ok none⟩
  | .error e :: _, _, _ => ⟨[], 1, .error e⟩
  | .ok (sol, term) :: rest, w, f =>
    match sol.cost with
    | some cost =>
      match w 0 with
      | .error e => ⟨[], 1, .error e⟩
      | .ok _ =>
        match f 0 with
        | .error e => ⟨[.write (formatLine sol cost)], 1, .error e⟩
        | .ok _ =>
          if term then
            ⟨[.write (formatLine sol cost), .flush], 1, .ok (some sol)⟩
          else
            let r := runLoop rest (fun i => w (i + 1)) (fun i => f (i + 1))
            ⟨.write (formatLine sol cost) :: .flush :: r.events, r.calls + 1, r.result⟩
    | none =>
      if term then ⟨[], 1, .ok (some sol)⟩
      else
        let r := runLoop rest w f
        ⟨r.events, r.calls + 1, r.result⟩

/-- `run_solver_and_dump_solution_history`: open the file (`openR`), then run
the loop. -/
def run_solver_and_dump_solution_history (openR : Except Err Unit)
    (stream : List (Except Err (Solution × Bool)))
    (w f : Nat → Except Err Unit) : RunResult :=
  match openR with
  | .error e => ⟨[], 0, .error e⟩
  | .ok _ => runLoop stream w f

/-- An always-succeeding oracle. -/
def allOk : Nat → Except Err Unit := fun _ => .ok ()

/-- A stream of successful `search_next` results. -/
def okStream (l : List (Solution × Bool)) : List (Except Err (Solution × Bool)) :=
  l.map .ok

/-- The sink events the specification demands for one returned solution:
one written line followed by a flush when the cost is present, nothing
otherwise. -/
def lineEvents (s : Solution) : List SinkEvent :=
  match s.cost with
  | some cost => [.write (formatLine s cost), .flush]
  | none => []

/-- The sink events demanded for a list of returned solutions. -/
def histEvents (l : List Solution) : List SinkEvent :=
  (l.map lineEvents).flatten

/-- Number of solutions in `l` whose cost is present (the number of writes
the loop performs on `l`). -/
def costCount (l : List (Solution × Bool)) : Nat :=
  (l.filter (fun p => p.1.cost.isSome)).length

/-- A history row as the specification words it: the six fields joined by
comma-space and terminated by a newline, the bound field being empty when
the bound is unknown. -/
def specRow (s : Solution) (cost : Int) : String :=
  String.intercalate ", "
    [s.time, toString cost,
      (match s.best_bound with | some bound => toString bound | none => ""),
      joinTransitions s.transitions, toString s.expanded, toString s.generated] ++ "\n"

/-- Whether a character list contains two adjacent commas. -/
def hasConsecCommasList : List Char → Bool
  | c₁ :: c₂ :: rest => (c₁ = ',' && c₂ = ',') || hasConsecCommasList (c₂ :: rest)
  | _ => false

/-- Whether a string contains two consecutive commas. -/
def hasConsecCommas (s : String) : Bool :=
  hasConsecCommasList s.toList

/-- Sample solution with a cost and a bound. -/
def sampleSol1 : Solution := ⟨some 5, some 3, ["a", "b"], "0.1", 10, 20⟩

/-- Sample solution with no cost. -/
def sampleSol2 : Solution := ⟨none, none, [], "0.2", 1, 2⟩

/-- Sample solution with a cost but no bound. -/
def sampleSol3 : Solution := ⟨some 5, none, ["a", "b"], "0.2", 1, 2⟩

theorem costCount_cons_some {s : Solution} {b : Bool} {pre : List (Solution × Bool)}
    {c : Int} (h : s.cost = some c) :
    costCount ((s, b) :: pre) = costCount pre + 1 := by
  simp [costCount, List.filter, h]

theorem costCount_cons_none {s : Solution} {b : Bool} {pre : List (Solution × Bool)}
    (h : s.cost = none) :
    costCount ((s, b) :: pre) = costCount pre := by
  simp [costCount, List.filter, h]

/-- Decomposition of the driver loop: a prefix of successful, non-terminating
`search_next` results whose writes and flushes all succeed contributes its
history events and one call apiece, and the loop continues on the rest with
the oracles advanced past the prefix's writes. -/
theorem runLoop_append (pre : List (Solution × Bool))
    (rest : List (Except Err (Solution × Bool))) (w f : Nat → Except Err Unit)
    (hpre : ∀ p ∈ pre, p.2 = false)
    (hw : ∀ i, i < costCount pre → w i = .ok ())
    (hf : ∀ i, i < costCount pre → f i = .ok ()) :
    runLoop (okStream pre ++ rest) w f =
      ⟨histEvents (pre.map Prod.fst) ++
          (runLoop rest (fun i => w (i + costCount pre)) (fun i => f (i + costCount pre))).events,
        pre.length +
          (runLoop rest (fun i => w (i + costCount pre)) (fun i => f (i + costCount pre))).calls,
        (runLoop rest (fun i => w (i + costCount pre)) (fun i => f (i + costCount pre))).result⟩ := by
  induction pre generalizing w f with
  | nil =>
      simp [okStream, histEvents, costCount]
  | cons p pre ih =>
      obtain ⟨s, b⟩ := p
      have hb : b = false := hpre (s, b) (List.mem_cons_self _ _)
      subst hb
      have hpre' : ∀ q ∈ pre, q.2 = false := fun q hq => hpre q (List.mem_cons_of_mem _ hq)
      cases h : s.cost with
      | some c =>
          have hcnt := @costCount_cons_some s false pre c h
          have hw0 : w 0 = .ok () := hw 0 (by rw [hcnt]; omega)
          have hf0 : f 0 = .ok () := hf 0 (by rw [hcnt]; omega)
          have hw' : ∀ i, i < costCount pre → w (i + 1) = .ok () := fun i hi =>
            hw (i + 1) (by rw [hcnt]; omega)
          have hf' : ∀ i, i < costCount pre → f (i + 1) = .ok () := fun i hi =>
            hf (i + 1) (by rw [hcnt]; omega)
          rw [show okStream ((s, false) :: pre) ++ rest =
            .ok (s, false) :: (okStream pre ++ rest) from rfl]
          simp only [runLoop, h, hw0, hf0]
          rw [ih _ _ hpre' hw' hf']
          simp [histEvents, lineEvents, h, hcnt, Nat.add_assoc]
          omega
      | none =>
          have hcnt := @costCount_cons_none s false pre h
          rw [show okStream ((s, false) :: pre) ++ rest =
            .ok (s, false) :: (okStream pre ++ rest) from rfl]
          simp only [runLoop, h]
          rw [ih _ _ hpre' (fun i hi => hw i (by rw [hcnt]; omega))
            (fun i hi => hf i (by rw [hcnt]; omega))]
          simp [histEvents, lineEvents, h, hcnt, Nat.add_assoc]
          omega

/-- C1: over any sequence of `search_next` results in which `sol` is the first
with `terminated = true`, `run_solver_and_dump_solution_history` emits exactly
one written line immediately followed by a flush for each returned solution
whose cost is present (and nothing for the others), makes no further
`search_next` call after the terminating one, and returns the first solution
for which `terminated` is true. -/
theorem run_history_events_and_result (pre : List (Solution × Bool)) (sol : Solution)
    (suf : List (Solution × Bool)) (hpre : ∀ p ∈ pre, p.2 = false) :
    run_solver_and_dump_solution_history (.ok ())
        (okStream (pre ++ (sol, true) :: suf)) allOk allOk =
      ⟨histEvents (pre.map Prod.fst ++ [sol]), pre.length + 1, .ok (some sol)⟩ := by
  have hsplit : okStream (pre ++ (sol, true) :: suf) =
      okStream pre ++ (.ok (sol, true) :: okStream suf) := by
    simp [okStream]
  rw [run_solver_and_dump_solution_history, hsplit,
    runLoop_append pre _ allOk allOk hpre (fun _ _ => rfl) (fun _ _ => rfl)]
  cases h : sol.cost with
  | some c => simp [runLoop, h, allOk, histEvents, lineEvents]
  | none => simp [runLoop, h, allOk, histEvents, lineEvents]

theorem run_history_events_and_result_witness :
    run_solver_and_dump_solution_history (.ok ())
        (okStream ([(sampleSol2, false)] ++ (sampleSol1, true) :: [])) allOk allOk =
      ⟨histEvents ([(sampleSol2, false)].map Prod.fst ++ [sampleSol1]),
        [(sampleSol2, false)].length + 1, .ok (some sampleSol1)⟩ :=
  run_history_events_and_result [(sampleSol2, false)] sampleSol1 [] (by simp)

/-- C2 (amended): every history line consists of the six fields time, cost,
bound, space-joined transitions, expanded, generated, joined by comma-space
and terminated by a newline; when the bound is absent the bound field is
empty, so the row contains two commas separated by a single space between
the cost and the transitions. -/
theorem formatLine_structure :
    (∀ s cost, formatLine s cost = specRow s cost) ∧
    (∀ s cost, s.best_bound = none →
      ∃ u v, formatLine s cost = u ++ ", , " ++ v) := by
  constructor
  · intro s cost
    cases hb : s.best_bound with
    | some bound =>
        apply String.ext
        simp [formatLine, specRow, hb, String.intercalate, String.intercalate.go,
          String.data_append]
    | none =>
        apply String.ext
        simp [formatLine, specRow, hb, String.intercalate, String.intercalate.go,
          String.data_append]
  · intro s cost hb
    refine ⟨s.time ++ ", " ++ toString cost,
      joinTransitions s.transitions ++ ", " ++ toString s.expanded ++ ", " ++
        toString s.generated ++ "\n", ?_⟩
    apply String.ext
    simp [formatLine, hb, String.data_append]

theorem formatLine_structure_witness :
    sampleSol3.best_bound = none ∧
    ∃ u v, formatLine sampleSol3 5 = u ++ ", , " ++ v :=
  ⟨rfl, formatLine_structure.2 sampleSol3 5 rfl⟩

/-- C2 counterexample: a history line with an absent bound does not contain
two consecutive commas anywhere; the two commas around the empty bound field
are separated by a space. -/
theorem formatLine_no_consecutive_commas :
    sampleSol3.best_bound = none ∧
    formatLine sampleSol3 5 = "0.2, 5, , a b, 1, 2\n" ∧
    hasConsecCommas (formatLine sampleSol3 5) = false := by
  refine ⟨rfl, by decide, by decide⟩

/-- C7: a failure of the file open, of a `write_all`, or of a `flush` is
returned to the caller of `run_solver_and_dump_solution_history`, and after
a failed write or flush the loop performs no further `search_next` call. -/
theorem run_history_error_propagation :
    (∀ (e : Err) (stream : List (Except Err (Solution × Bool)))
        (w f : Nat → Except Err Unit),
      run_solver_and_dump_solution_history (.error e) stream w f = ⟨[], 0, .error e⟩) ∧
    (∀ (pre : List (Solution × Bool)) (sol : Solution) (b : Bool)
        (suf : List (Except Err (Solution × Bool))) (w f : Nat → Except Err Unit)
        (e : Err) (c : Int),
      (∀ p ∈ pre, p.2 = false) →
      (∀ i, i < costCount pre → w i = .ok ()) →
      (∀ i, i < costCount pre → f i = .ok ()) →
      sol.cost = some c →
      w (costCount pre) = .error e →
      run_solver_and_dump_solution_history (.ok ()) (okStream pre ++ .ok (sol, b) :: suf) w f =
        ⟨histEvents (pre.map Prod.fst), pre.length + 1, .error e⟩) ∧
    (∀ (pre : List (Solution × Bool)) (sol : Solution) (b : Bool)
        (suf : List (Except Err (Solution × Bool))) (w f : Nat → Except Err Unit)
        (e : Err) (c : Int),
      (∀ p ∈ pre, p.2 = false) →
      (∀ i, i < costCount pre → w i = .ok ()) →
      (∀ i, i < costCount pre → f i = .ok ()) →
      sol.cost = some c →
      w (costCount pre) = .ok () →
      f (costCount pre) = .error e →
      run_solver_and_dump_solution_history (.ok ()) (okStream pre ++ .ok (sol, b) :: suf) w f =
        ⟨histEvents (pre.map Prod.fst) ++ [.write (formatLine sol c)],
          pre.length + 1, .error e⟩) := by
  refine ⟨fun e stream w f => rfl, ?_, ?_⟩
  · intro pre sol b suf w f e c hpre hw hf hc herr
    rw [run_solver_and_dump_solution_history, runLoop_append pre _ w f hpre hw hf]
    simp [runLoop, hc, Nat.zero_add, herr]
  · intro pre sol b suf w f e c hpre hw hf hc hok herr
    rw [run_solver_and_dump_solution_history, runLoop_append pre _ w f hpre hw hf]
    simp [runLoop, hc, Nat.zero_add, hok, herr]

theorem run_history_error_propagation_witness :
    run_solver_and_dump_solution_history (.ok ())
        (okStream [] ++ .ok (sampleSol1, true) :: []) (fun _ => .error "disk full") allOk =
      ⟨histEvents (([] : List (Solution × Bool)).map Prod.fst),
        ([] : List (Solution × Bool)).length + 1, .error "disk full"⟩ :=
  run_history_error_propagation.2.1 [] sampleSol1 true [] (fun _ => .error "disk full")
    allOk "disk full" 5 (by simp) (fun i hi => by simp [costCount] at hi)
    (fun i hi => by simp [costCount] at hi) rfl rfl

end IoUtil

/-- `itertools::tuple_combinations` specialised to pairs: all `(l[i], l[j])`
with `i < j`, in lexicographic order of positions. -/
def tupleCombinations {α : Type} : List α → List (α × α)
  | [] => []
  | x :: xs => xs.map (fun y => (x, y)) ++ tupleCombinations xs

namespace Misp

/-- `misp::Instance`. -/
structure Instance where
  n : Nat
  adjacency_list : List (List Nat)
deriving Repr

/-- `misp::Instance::validate`: every pair drawn from the input must be two
distinct in-bounds non-adjacent vertices.  Rust's early return on the first
failing pair is modelled by `List.all` (the boolean result is the same);
`adjacency_list[i]` is modelled with `getD` (the claims proved here never
reach an out-of-bounds row). -/
def validate (I : Instance) (independent_set : List Nat) : Bool :=
  (tupleCombinations independent_set).all fun p =>
    decide (p.1 < I.n) && decide (p.2 < I.n) && decide (p.1 ≠ p.2) &&
      !((I.adjacency_list.getD p.1 []).contains p.2)

/-- A sample two-vertex instance with one edge. -/
def sampleInstance : Instance := ⟨2, [[1], [0]]⟩

/-- C9: `validate` accepts every list of fewer than two vertices — the
out-of-bounds, duplicate and adjacency checks run only on pairs of
elements, so an empty list or a singleton (even with an out-of-range
index) is accepted. -/
theorem validate_accepts_short_lists (I : Instance) (l : List Nat)
    (h : l.length < 2) : validate I l = true := by
  cases l with
  | nil => rfl
  | cons x xs =>
    cases xs with
    | nil => simp [validate, tupleCombinations]
    | cons y ys => simp at h; omega

theorem validate_accepts_short_lists_witness :
    [(999 : Nat)].length < 2 ∧ validate sampleInstance [999] = true :=
  ⟨by decide, validate_accepts_short_lists sampleInstance [999] (by decide)⟩

end Misp

namespace GolombRuler

/-- `golomb_ruler::KNOWN_OPTIMAL_COSTS`. -/
def KNOWN_OPTIMAL_COSTS : List Nat :=
  [0, 0, 1, 3, 6, 11, 17, 25, 34, 44, 55, 72, 85, 106, 127, 151, 177, 199, 216,
    246, 283, 333, 356, 372, 425, 480, 492, 553, 585]

/-- `if i > j { i - j } else { j - i }` on `usize`. -/
def dist (i j : Nat) : Nat := if i > j then i - j else j - i

/-- The distances of a list of pairs. -/
def distsOf (pairs : List (Nat × Nat)) : List Nat :=
  pairs.map fun p => dist p.1 p.2

/-- The pairwise distances of the marks, in the order `tuple_combinations`
produces them. -/
def pairDists (marks : List Nat) : List Nat :=
  distsOf (tupleCombinations marks)

theorem distsOf_cons (p : Nat × Nat) (rest : List (Nat × Nat)) :
    distsOf (p :: rest) = dist p.1 p.2 :: distsOf rest := rfl

/-- The loop of `golomb_ruler::validate` over the pairs: `seen` is the set of
distances inserted so far (the `FixedBitSet` of capacity `n * n`; modelled as
a list, faithful as long as every distance is below the capacity), `maxd` the
running maximum.  Returns `none` on the early `return false` for a repeated
distance, otherwise the final maximum. -/
def validateLoop : List (Nat × Nat) → List Nat → Nat → Option Nat
  | [], _, maxd => some maxd
  | p :: rest, seen, maxd =>
    let d := dist p.1 p.2
    if seen.contains d then none
    else validateLoop rest (d :: seen) (max maxd d)

/-- `golomb_ruler::validate`. -/
def validate (n : Nat) (marks : List Nat) (len : Nat) : Bool :=
  if marks.length ≠ n then false
  else
    match validateLoop (tupleCombinations marks) [] 0 with
    | none => false
    | some maxd => maxd == len

/-- The loop succeeds exactly when the distances are pairwise distinct and
avoid the distances already seen, and then returns the running maximum. -/
theorem validateLoop_eq (pairs : List (Nat × Nat)) :
    ∀ (seen : List Nat) (maxd : Nat),
      validateLoop pairs seen maxd =
        if (distsOf pairs).Nodup ∧ ∀ d ∈ distsOf pairs, d ∉ seen then
          some ((distsOf pairs).foldl max maxd)
        else none := by
  induction pairs with
  | nil => intro seen maxd; simp [validateLoop, distsOf]
  | cons p rest ih =>
      intro seen maxd
      simp only [validateLoop, distsOf_cons]
      rw [ih]
      by_cases hmem : dist p.1 p.2 ∈ seen
      · have hcontains : seen.contains (dist p.1 p.2) = true := by
          simp [List.contains, List.elem_eq_mem, hmem]
        rw [if_pos hcontains]
        rw [if_neg]
        rintro ⟨-, hall⟩
        exact hall (dist p.1 p.2) (List.mem_cons_self _ _) hmem
      · have hcontains : seen.contains (dist p.1 p.2) = false := by
          simp [List.contains, List.elem_eq_mem, hmem]
        have hiff : ((distsOf rest).Nodup ∧
            ∀ x ∈ distsOf rest, x ∉ dist p.1 p.2 :: seen) ↔
            ((dist p.1 p.2 :: distsOf rest).Nodup ∧
            ∀ x ∈ dist p.1 p.2 :: distsOf rest, x ∉ seen) := by
          constructor
          · rintro ⟨hnd, hall⟩
            refine ⟨List.nodup_cons.mpr ⟨?_, hnd⟩, ?_⟩
            · intro hd
              exact (hall _ hd) (List.mem_cons_self _ _)
            · intro x hx
              rcases List.mem_cons.mp hx with rfl | hx'
              · exact hmem
              · exact fun hxs => (hall x hx') (List.mem_cons_of_mem _ hxs)
          · rintro ⟨hnd, hall⟩
            refine ⟨(List.nodup_cons.mp hnd).2, fun x hx hxds => ?_⟩
            rcases List.mem_cons.mp hxds with h | hxs
            · exact (List.nodup_cons.mp hnd).1 (h ▸ hx)
            · exact (hall x (List.mem_cons_of_mem _ hx)) hxs
        rw [hcontains]
        simp only [Bool.false_eq_true, if_false]
        exact if_congr hiff rfl rfl

/-- C6: `validate n marks len` accepts exactly the lists of `n` marks whose
pairwise differences are all distinct and whose largest pairwise difference
equals `len` (provided all differences are below the bitset capacity
`n * n`, so the Rust code does not panic), and the table of known optima
assigns 11 to `n = 5`. -/
theorem validate_iff_and_known_optimum :
    (∀ (n : Nat) (marks : List Nat) (len : Nat),
      (∀ d ∈ pairDists marks, d < n * n) →
      (validate n marks len = true ↔
        marks.length = n ∧ (pairDists marks).Nodup ∧
          (pairDists marks).foldl max 0 = len)) ∧
    KNOWN_OPTIMAL_COSTS.getD 5 0 = 11 := by
  refine ⟨?_, rfl⟩
  intro n marks len hcap
  rw [validate, validateLoop_eq]
  by_cases hlen : marks.length = n
  · by_cases hnd : (pairDists marks).Nodup
    · rw [if_neg (by simp [hlen]), if_pos ⟨by simpa [pairDists] using hnd, by simp⟩]
      simp only [pairDists] at hnd
      simp [pairDists, hlen, hnd]
    · rw [if_neg (by simp [hlen]), if_neg (by simp [pairDists] at hnd; simp [hnd])]
      simp [hlen, hnd]
  · rw [if_pos (by simp [hlen])]
    simp [hlen]

theorem validate_iff_and_known_optimum_witness :
    (∀ d ∈ pairDists [0, 1, 4, 9, 11], d < 5 * 5) ∧
    (validate 5 [0, 1, 4, 9, 11] 11 = true ↔
      ([0, 1, 4, 9, 11] : List Nat).length = 5 ∧ (pairDists [0, 1, 4, 9, 11]).Nodup ∧
        (pairDists [0, 1, 4, 9, 11]).foldl max 0 = 11) :=
  ⟨by decide, validate_iff_and_known_optimum.1 5 [0, 1, 4, 9, 11] 11 (by decide)⟩

end GolombRuler

namespace GraphClear

/-- `graph_clear::Instance`. -/
structure Instance where
  node_weights : List Int
  edge_weights : List (List Int)
deriving Repr

/-- The number of robots needed to clean node `i` when the nodes in `clean`
are already clean: the node's weight, plus the weights of all edges at `i`,
plus the weights of all edges from a clean node `j` to a contaminated node
`k ≠ i`.  `clean.zeroes()` ranges over the bitset capacity, i.e. `0..n`.
The iteration order of the bitset does not affect the sums. -/
def nRobots (I : Instance) (clean : List Nat) (i : Nat) : Int :=
  I.node_weights.getD i 0 + (I.edge_weights.getD i []).sum +
    (clean.map fun j =>
      (((List.range I.node_weights.length).filter
          fun k => !clean.contains k && k ≠ i).map fun k =>
        (I.edge_weights.getD j []).getD k 0).sum).sum

/-- The loop of `graph_clear::Instance::validate`: fails on an out-of-range
or repeated node, otherwise accumulates the max of `nRobots` over the
schedule. -/
def validateLoop (I : Instance) : List Nat → List Nat → Int → Option Int
  | [], _, rc => some rc
  | i :: rest, clean, rc =>
    if i ≥ I.node_weights.length then none
    else if clean.contains i then none
    else validateLoop I rest (clean ++ [i]) (max rc (nRobots I clean i))

/-- `graph_clear::Instance::validate`. -/
def validate (I : Instance) (solution : List Nat) (cost : Int) : Bool :=
  if solution.length ≠ I.node_weights.length then false
  else
    match validateLoop I solution [] 0 with
    | none => false
    | some rc => rc == cost

/-- The two-node instance with node weights `[3, 2]` and edge weight 4. -/
def twoNodeInstance : Instance := ⟨[3, 2], [[0, 4], [4, 0]]⟩

/-- C5: on the two-node instance, `validate [0, 1] cost` accepts exactly
`cost = 7 = max (3 + 4) (2 + 4 + 0)`, the bottleneck (max-combined) number
of robots. -/
theorem twoNode_validate_iff (cost : Int) :
    validate twoNodeInstance [0, 1] cost = true ↔ cost = 7 := by
  show ((7 : Int) == cost) = true ↔ cost = 7
  rw [beq_iff_eq]
  exact eq_comm

end GraphClear

namespace BinPacking

/-- `bin_packing::Instance`. -/
structure Instance where
  capacity : Int
  weights : List Int
deriving Repr

/-- The loop of `bin_packing::Instance::validate`: sequential first-fit
decoding.  `packed` is the set of items already packed (the Rust `packed`
boolean vector; membership only), `cap` the remaining capacity of the
current bin, `rc` the number of bins opened so far. -/
def validateLoop (I : Instance) : List Nat → Int → List Nat → Int → Option Int
  | [], _, _, rc => some rc
  | i :: rest, cap, packed, rc =>
    if i ≥ I.weights.length then none
    else if packed.contains i then none
    else
      if I.weights.getD i 0 > cap then
        validateLoop I rest (I.capacity - I.weights.getD i 0) (i :: packed) (rc + 1)
      else
        validateLoop I rest (cap - I.weights.getD i 0) (i :: packed) rc

/-- `bin_packing::Instance::validate`. -/
def validate (I : Instance) (solution : List Nat) (cost : Int) : Bool :=
  if solution.length ≠ I.weights.length then false
  else
    match validateLoop I solution 0 [] 0 with
    | none => false
    | some rc => rc == cost

/-- Total weight of a list of item indices. -/
def sumW (I : Instance) (l : List Nat) : Int :=
  (l.map fun i => I.weights.getD i 0).sum

/-- The instance of the claim: capacity 10, weights `[4, 8, 1, 4, 2, 1]`. -/
def sampleInstance : Instance := ⟨10, [4, 8, 1, 4, 2, 1]⟩

/-- A successful run packs at most `rc * capacity` weight beyond the current
bin's remaining capacity: the recomputed cost times the capacity covers the
total weight. -/
theorem validateLoop_weight_bound (I : Instance)
    (hW : ∀ w ∈ I.weights, 0 < w ∧ w ≤ I.capacity) :
    ∀ (l : List Nat) (cap : Int) (packed : List Nat) (rc rcf : Int),
      validateLoop I l cap packed rc = some rcf →
      sumW I l ≤ (rcf - rc) * I.capacity + max cap 0 := by
  intro l
  induction l with
  | nil =>
      intro cap packed rc rcf h
      rw [validateLoop] at h
      injection h with h
      subst h
      simp only [sumW, List.map_nil, List.sum_nil, sub_self, zero_mul, zero_add]
      exact le_max_right cap 0
  | cons i rest ih =>
      intro cap packed rc rcf h
      rw [validateLoop] at h
      by_cases hi : i ≥ I.weights.length
      · rw [if_pos hi] at h; exact Option.noConfusion h
      · rw [if_neg hi] at h
        by_cases hp : packed.contains i = true
        · rw [if_pos hp] at h; exact Option.noConfusion h
        · rw [if_neg hp] at h
          have hlt : i < I.weights.length := by omega
          have hwmem : I.weights.getD i 0 ∈ I.weights := by
            rw [List.getD_eq_getElem I.weights 0 hlt]
            exact List.getElem_mem hlt
          obtain ⟨hw0, hwC⟩ := hW _ hwmem
          have hsum : sumW I (i :: rest) = I.weights.getD i 0 + sumW I rest := by
            simp [sumW]
          by_cases hcap : I.weights.getD i 0 > cap
          · rw [if_pos hcap] at h
            have hrec := ih (I.capacity - I.weights.getD i 0) (i :: packed) (rc + 1) rcf h
            have hmax : max (I.capacity - I.weights.getD i 0) (0 : Int) =
                I.capacity - I.weights.getD i 0 := max_eq_left (by linarith)
            rw [hmax] at hrec
            rw [hsum]
            have h0 : (0 : Int) ≤ max cap 0 := le_max_right cap 0
            have hexp : (rcf - rc) * I.capacity =
                (rcf - (rc + 1)) * I.capacity + I.capacity := by ring
            linarith
          · rw [if_neg hcap] at h
            push_neg at hcap
            have hrec := ih (cap - I.weights.getD i 0) (i :: packed) rc rcf h
            have hm1 : max (cap - I.weights.getD i 0) (0 : Int) =
                cap - I.weights.getD i 0 := max_eq_left (by linarith)
            have hm2 : max cap (0 : Int) = cap := max_eq_left (by linarith)
            rw [hm1] at hrec
            rw [hsum, hm2]
            linarith

/-- A successful run only processes in-range, pairwise distinct items not
already packed. -/
theorem validateLoop_nodup (I : Instance) :
    ∀ (l : List Nat) (cap : Int) (packed : List Nat) (rc rcf : Int),
      validateLoop I l cap packed rc = some rcf →
      l.Nodup ∧ ∀ i ∈ l, i < I.weights.length ∧ i ∉ packed := by
  intro l
  induction l with
  | nil => intro cap packed rc rcf h; simp
  | cons i rest ih =>
      intro cap packed rc rcf h
      rw [validateLoop] at h
      by_cases hi : i ≥ I.weights.length
      · rw [if_pos hi] at h; exact Option.noConfusion h
      · rw [if_neg hi] at h
        by_cases hp : packed.contains i = true
        · rw [if_pos hp] at h; exact Option.noConfusion h
        · rw [if_neg hp] at h
          have hrest : rest.Nodup ∧ ∀ j ∈ rest, j < I.weights.length ∧ j ∉ i :: packed := by
            by_cases hcap : I.weights.getD i 0 > cap
            · exact ih _ _ _ _ (by rwa [if_pos hcap] at h)
            · exact ih _ _ _ _ (by rwa [if_neg hcap] at h)
          obtain ⟨hnd, hall⟩ := hrest
          refine ⟨List.nodup_cons.mpr ⟨?_, hnd⟩, ?_⟩
          · intro hmem
            exact (hall i hmem).2 (List.mem_cons_self _ _)
          · intro j hj
            rcases List.mem_cons.mp hj with rfl | hj'
            · refine ⟨by omega, by simpa using hp⟩
            · exact ⟨(hall j hj').1, fun hjp => (hall j hj').2 (List.mem_cons_of_mem _ hjp)⟩

/-- A nodup list of six indices below six covers all of `0..5`, so its total
weight is the total weight 20 of the sample instance. -/
theorem sumW_of_perm (l : List Nat) (hnd : l.Nodup) (hlen : l.length = 6)
    (hlt : ∀ i ∈ l, i < 6) : sumW sampleInstance l = 20 := by
  have hsub : l.toFinset ⊆ Finset.range 6 := by
    intro i hi
    simp only [Finset.mem_range]
    exact hlt i (List.mem_toFinset.mp hi)
  have hcard : l.toFinset.card = 6 := by
    rw [List.toFinset_card_of_nodup hnd, hlen]
  have heq : l.toFinset = Finset.range 6 :=
    Finset.eq_of_subset_of_card_le hsub (by simp [hcard])
  have hsum : sumW sampleInstance l =
      ∑ i ∈ l.toFinset, (sampleInstance.weights.getD i 0) := by
    rw [List.sum_toFinset _ hnd]
    rfl
  rw [hsum, heq]
  decide

/-- C4: on capacity 10 and weights `[4, 8, 1, 4, 2, 1]`, the ordering
`[1, 4, 0, 2, 3, 5]` is accepted with cost 2 (two bins), and no ordering of
the six items is accepted with a cost below 2. -/
theorem sample_opt_two_bins :
    validate sampleInstance [1, 4, 0, 2, 3, 5] 2 = true ∧
    ∀ (l : List Nat) (c : Int), validate sampleInstance l c = true → 2 ≤ c := by
  constructor
  · decide
  · intro l c h
    rw [validate] at h
    by_cases hlen : l.length = sampleInstance.weights.length
    · rw [if_neg (by simp [hlen])] at h
      cases hm : validateLoop sampleInstance l 0 [] 0 with
      | none => rw [hm] at h; simp at h
      | some rc =>
          rw [hm] at h
          have hrc : rc = c := by simpa using h
          have hbound := validateLoop_weight_bound sampleInstance (by decide) l 0 [] 0 rc hm
          obtain ⟨hnd, hall⟩ := validateLoop_nodup sampleInstance l 0 [] 0 rc hm
          have hsum : sumW sampleInstance l = 20 :=
            sumW_of_perm l hnd (by simpa [sampleInstance] using hlen)
              (fun i hi => by simpa [sampleInstance] using (hall i hi).1)
          rw [hsum] at hbound
          have hcap : sampleInstance.capacity = 10 := rfl
          rw [hcap] at hbound
          simp at hbound
          omega
    · rw [if_pos (by simp [hlen])] at h
      simp at h

theorem sample_opt_two_bins_witness :
    validate sampleInstance [1, 4, 0, 2, 3, 5] 2 = true ∧ (2 : Int) ≤ 2 :=
  ⟨by decide, sample_opt_two_bins.2 [1, 4, 0, 2, 3, 5] 2 (by decide)⟩

end BinPacking

namespace Cli

/-- `SolverChoice` as declared in each binary crate. -/
inductive SolverChoice where
  | Cabs
  | Astar
deriving DecidableEq, Repr

/-- The `Args` fields common to the binaries (`knapsack` among them);
`time_limit` is an `f64` in Rust, modelled as a rational (the default
1800.0 is exactly representable). -/
structure Args where
  input_file : String
  solver : SolverChoice
  history : String
  time_limit : ℚ
deriving DecidableEq, Repr

/-- A command-line option overriding one of the optional fields. -/
inductive Flag where
  | solver (s : SolverChoice)
  | history (path : String)
  | time_limit (t : ℚ)

/-- Clap's behaviour for the `Args` declaration, modelled from the
`default_value_t` attributes in the source: start from the declared
defaults and apply each provided flag. -/
def parseArgs (input_file : String) (flags : List Flag) : Args :=
  flags.foldl
    (fun a fl =>
      match fl with
      | .solver s => { a with solver := s }
      | .history p => { a with history := p }
      | .time_limit t => { a with time_limit := t })
    ⟨input_file, .Cabs, "history.csv", 1800⟩

/-- C10: with no optional flags provided, parsing yields solver `Cabs`,
history path `"history.csv"` and time limit 1800.0 seconds. -/
theorem parseArgs_defaults (file : String) :
    parseArgs file [] = ⟨file, .Cabs, "history.csv", 1800⟩ := rfl

end Cli

/-- `(l.set k v).getD` in terms of `l.getD`. -/
theorem getD_set {α : Type} (l : List α) (k x : Nat) (v d : α) :
    (l.set k v).getD x d = if k = x ∧ k < l.length then v else l.getD x d := by
  rw [List.getD, List.get?_eq_getElem?, List.getElem?_set, List.getD, List.get?_eq_getElem?]
  rcases eq_or_ne k x with rfl | hne
  · by_cases hk : k < l.length
    · simp [hk]
    · simp [hk, List.getElem?_eq_none (show l.length ≤ k by omega)]
  · simp [hne]

/-- Map a function of the element index over a list, starting the index
count at `i0` (models Rust's `iter_mut().enumerate()` patterns). -/
def mapFrom {α β : Type} (f : Nat → α → β) (i0 : Nat) : List α → List β
  | [] => []
  | x :: xs => f i0 x :: mapFrom f (i0 + 1) xs

theorem length_mapFrom {α β : Type} (f : Nat → α → β) :
    ∀ (i0 : Nat) (l : List α), (mapFrom f i0 l).length = l.length := by
  intro i0 l
  induction l generalizing i0 with
  | nil => rfl
  | cons x xs ih => simp [mapFrom, ih]

theorem getD_mapFrom {α β : Type} (f : Nat → α → β) :
    ∀ (l : List α) (i0 j : Nat) (dα : α) (dβ : β),
      (mapFrom f i0 l).getD j dβ =
        if j < l.length then f (i0 + j) (l.getD j dα) else dβ := by
  intro l
  induction l with
  | nil => intro i0 j dα dβ; simp [mapFrom]
  | cons x xs ih =>
      intro i0 j dα dβ
      cases j with
      | zero => simp [mapFrom]
      | succ j' =>
          rw [mapFrom]
          have := ih (i0 + 1) j' dα dβ
          simp only [List.getD_cons_succ, List.length_cons, this]
          have harith : i0 + 1 + j' = i0 + (j' + 1) := by omega
          rw [harith]
          by_cases hj : j' < xs.length
          · rw [if_pos hj, if_pos (by omega)]
          · rw [if_neg hj, if_neg (by omega)]

namespace Tsptw

/-- `tsptw::Instance`: `a`/`b` are the time-window openings and closings,
`c` the distance matrix with `None` for absent edges (the diagonal after
reading, and deleted edges after simplification). -/
structure Instance where
  a : List Int
  b : List Int
  c : List (List (Option Int))
deriving DecidableEq, Repr

/-- `self.a[k]`; all theorems below restrict to instances where the index
is in range, so the `getD` default is never exercised. -/
def aAt (I : Instance) (k : Nat) : Int := I.a.getD k 0

/-- `self.b[k]`. -/
def bAt (I : Instance) (k : Nat) : Int := I.b.getD k 0

/-- `self.c[i][j]`. -/
def cAt (I : Instance) (i j : Nat) : Option Int := (I.c.getD i []).getD j none

/-- The loop of `tsptw::Instance::validate_inner` over `tour ++ [0]`,
carrying the current time, current node, visited set and recomputed cost.
On success, returns the final time (the makespan) and the recomputed cost
(the sum of traversed distances). -/
def validateLoop (I : Instance) :
    List Nat → Int → Nat → List Nat → Int → Option (Int × Int)
  | [], time, _, _, rc => some (time, rc)
  | nxt :: rest, time, cur, visited, rc =>
    if nxt ≥ I.a.length then none
    else if visited.contains nxt then none
    else
      match cAt I cur nxt with
      | none => none
      | some d =>
        if max (time + d) (aAt I nxt) > bAt I nxt then none
        else validateLoop I rest (max (time + d) (aAt I nxt)) nxt (nxt :: visited) (rc + d)

/-- `tsptw::Instance::validate_inner`. -/
def validate_inner (I : Instance) (tour : List Nat) (cost : Int)
    (minimize_makespan : Bool) : Bool :=
  if tour.length ≠ I.a.length - 1 then false
  else
    match validateLoop I (tour ++ [0]) 0 0 [] 0 with
    | none => false
    | some (time, rc) => if minimize_makespan then cost == time else cost == rc

/-- `tsptw::Instance::validate`. -/
def validate (I : Instance) (tour : List Nat) (cost : Int) : Bool :=
  validate_inner I tour cost false

/-- `tsptw::Instance::validate_makespan`. -/
def validate_makespan (I : Instance) (tour : List Nat) (makespan : Int) : Bool :=
  validate_inner I tour makespan true

/-- Shape well-formedness: `b` and `c` have the same length as `a` and the
rows of `c` are square; instances read from files have this shape, and on
such instances the `getD`-based accessors coincide with Rust's (panicking)
indexing. -/
def WF (I : Instance) : Prop :=
  I.b.length = I.a.length ∧ I.c.length = I.a.length ∧
    ∀ row ∈ I.c, row.length = I.a.length

/-- Sum of the traversed edge distances along a path starting at `cur`
(`none` if an edge is absent). -/
def distSum (I : Instance) : Nat → List Nat → Option Int
  | _, [] => some 0
  | cur, nxt :: rest =>
    match cAt I cur nxt with
    | none => none
    | some d => (distSum I nxt rest).map fun s => d + s

/-- Arrival time at the end of a path starting at `cur` at time `t`,
waiting at each node for its window to open (`none` if an edge is
absent). -/
def arrivalTime (I : Instance) : Nat → Int → List Nat → Option Int
  | _, t, [] => some t
  | cur, t, nxt :: rest =>
    match cAt I cur nxt with
    | none => none
    | some d => arrivalTime I nxt (max (t + d) (aAt I nxt)) rest

/-- Destructor for one successful step of the validation loop. -/
theorem validateLoop_cons_elim {I : Instance} {nxt : Nat} {rest : List Nat}
    {time : Int} {cur : Nat} {visited : List Nat} {rc : Int} {res : Int × Int}
    (h : validateLoop I (nxt :: rest) time cur visited rc = some res) :
    ∃ d, nxt < I.a.length ∧ nxt ∉ visited ∧ cAt I cur nxt = some d ∧
      max (time + d) (aAt I nxt) ≤ bAt I nxt ∧
      validateLoop I rest (max (time + d) (aAt I nxt)) nxt (nxt :: visited)
        (rc + d) = some res := by
  rw [validateLoop] at h
  by_cases h1 : nxt ≥ I.a.length
  · rw [if_pos h1] at h; exact Option.noConfusion h
  · rw [if_neg h1] at h
    by_cases h2 : visited.contains nxt = true
    · rw [if_pos h2] at h; exact Option.noConfusion h
    · rw [if_neg h2] at h
      cases hc : cAt I cur nxt with
      | none => rw [hc] at h; exact Option.noConfusion h
      | some d =>
          rw [hc] at h
          have h' : (if max (time + d) (aAt I nxt) > bAt I nxt then none
              else validateLoop I rest (max (time + d) (aAt I nxt)) nxt
                (nxt :: visited) (rc + d)) = some res := h
          by_cases h3 : max (time + d) (aAt I nxt) > bAt I nxt
          · rw [if_pos h3] at h'; exact Option.noConfusion h'
          · rw [if_neg h3] at h'
            exact ⟨d, by omega, by simpa using h2, rfl, by omega, h'⟩

/-- Constructor for one successful step of the validation loop. -/
theorem validateLoop_cons_intro {I : Instance} {nxt : Nat} {rest : List Nat}
    {time : Int} {cur : Nat} {visited : List Nat} {rc : Int} {res : Int × Int}
    {d : Int} (h1 : nxt < I.a.length) (h2 : nxt ∉ visited)
    (hc : cAt I cur nxt = some d)
    (h3 : max (time + d) (aAt I nxt) ≤ bAt I nxt)
    (h : validateLoop I rest (max (time + d) (aAt I nxt)) nxt (nxt :: visited)
      (rc + d) = some res) :
    validateLoop I (nxt :: rest) time cur visited rc = some res := by
  rw [validateLoop, if_neg (by omega), if_neg (by simpa using h2), hc]
  show (if max (time + d) (aAt I nxt) > bAt I nxt then none
    else validateLoop I rest (max (time + d) (aAt I nxt)) nxt (nxt :: visited)
      (rc + d)) = some res
  rw [if_neg (by omega)]
  exact h

/-- A successful run's recomputed cost is the distance sum and its final
time is the waiting arrival time. -/
theorem validateLoop_distSum_arrival (I : Instance) :
    ∀ (l : List Nat) (time : Int) (cur : Nat) (visited : List Nat)
      (rc T R : Int),
      validateLoop I l time cur visited rc = some (T, R) →
      distSum I cur l = some (R - rc) ∧ arrivalTime I cur time l = some T := by
  intro l
  induction l with
  | nil =>
      intro time cur visited rc T R h
      rw [validateLoop] at h
      simp only [Option.some.injEq, Prod.mk.injEq] at h
      obtain ⟨rfl, rfl⟩ := h
      simp [distSum, arrivalTime]
  | cons nxt rest ih =>
      intro time cur visited rc T R h
      obtain ⟨d, hlt, hnm, hc, hwin, hrec⟩ := validateLoop_cons_elim h
      obtain ⟨hds, har⟩ := ih _ _ _ _ _ _ hrec
      constructor
      · rw [distSum, hc, hds]
        show some (d + (R - (rc + d))) = some (R - rc)
        congr 1
        ring
      · rw [arrivalTime, hc]
        exact har

/-- A two-node instance on which waiting is forced: the depot opens at 0
and node 1 opens at 10 while the travel distance is 3. -/
def waitInstance : Instance :=
  ⟨[0, 10], [100, 100], [[none, some 3], [some 3, none]]⟩

/-- C3: a tour accepted by `validate` has cost equal to the sum of traversed
edge distances (depot through the tour and back); a tour accepted by
`validate_makespan` has makespan equal to the arrival time back at the depot
computed with waiting; and on `waitInstance` the tour `[1]` is accepted with
cost 6 by `validate` and makespan 13 by `validate_makespan`. -/
theorem validate_cost_and_makespan :
    (∀ (I : Instance) (tour : List Nat) (cost : Int), WF I →
      validate I tour cost = true → distSum I 0 (tour ++ [0]) = some cost) ∧
    (∀ (I : Instance) (tour : List Nat) (ms : Int), WF I →
      validate_makespan I tour ms = true →
      arrivalTime I 0 0 (tour ++ [0]) = some ms) ∧
    (validate waitInstance [1] 6 = true ∧
      validate_makespan waitInstance [1] 13 = true ∧ (6 : Int) ≠ 13) := by
  have hmain : ∀ (I : Instance) (tour : List Nat) (cost : Int) (ms : Bool),
      validate_inner I tour cost ms = true →
      ∃ T R, validateLoop I (tour ++ [0]) 0 0 [] 0 = some (T, R) ∧
        cost = if ms then T else R := by
    intro I tour cost ms h
    rw [validate_inner] at h
    by_cases hlen : tour.length = I.a.length - 1
    · rw [if_neg (by omega)] at h
      cases hm : validateLoop I (tour ++ [0]) 0 0 [] 0 with
      | none => rw [hm] at h; exact absurd h (by simp)
      | some p =>
          obtain ⟨T, R⟩ := p
          rw [hm] at h
          refine ⟨T, R, rfl, ?_⟩
          cases ms with
          | true => simpa using h
          | false => simpa using h
    · rw [if_pos (by omega)] at h
      exact absurd h (by simp)
  refine ⟨?_, ?_, by decide, by decide, by decide⟩
  · intro I tour cost _ h
    obtain ⟨T, R, hm, hcost⟩ := hmain I tour cost false h
    have := (validateLoop_distSum_arrival I _ _ _ _ _ _ _ hm).1
    rw [sub_zero] at this
    simpa [hcost] using this
  · intro I tour ms _ h
    obtain ⟨T, R, hm, hcost⟩ := hmain I tour ms true h
    have := (validateLoop_distSum_arrival I _ _ _ _ _ _ _ hm).2
    simpa [hcost] using this

theorem validate_cost_and_makespan_witness :
    WF waitInstance ∧ distSum waitInstance 0 ([1] ++ [0]) = some 6 :=
  ⟨⟨rfl, rfl, by decide⟩,
    validate_cost_and_makespan.1 waitInstance [1] 6 ⟨rfl, rfl, by decide⟩ (by decide)⟩

/-- The deletion test of `tsptw::Instance::delete_edges` for the entry
`c[i][j] = Some d`: the cheap test `a[i] + d > b[j]`, or, with expensive
detection and `i, j ≠ 0`, the existence of `k ∈ 1..n` with
`b[i] < a[k]` and `b[k] < a[j]`. -/
def delCond (I : Instance) (expensive : Bool) (i j : Nat) (d : Int) : Bool :=
  decide (aAt I i + d > bAt I j) ||
    (expensive && decide (i ≠ 0) && decide (j ≠ 0) &&
      (List.range' 1 (I.a.length - 1)).any fun k =>
        decide (bAt I i < aAt I k) && decide (bAt I k < aAt I j))

/-- `tsptw::Instance::delete_edges` (the mutation part; the `deleted` flag
is recovered as a change test, which is equivalent because the pass only
turns `Some` entries into `None`). -/
def deleteEdges (I : Instance) (expensive : Bool) : Instance :=
  ⟨I.a, I.b,
    mapFrom
      (fun i row =>
        mapFrom
          (fun j entry =>
            match entry with
            | none => none
            | some d => if delCond I expensive i j d then none else some d)
          0 row)
      0 I.c⟩

/-- Update `a[k]`. -/
def setA (I : Instance) (k : Nat) (v : Int) : Instance := ⟨I.a.set k v, I.b, I.c⟩

/-- Update `b[k]`. -/
def setB (I : Instance) (k : Nat) (v : Int) : Instance := ⟨I.a, I.b.set k v, I.c⟩

/-- The `min` accumulation of an `if let Some(v) = g(i)` loop. -/
def foldMin (g : Nat → Option Int) (L : List Nat) (init : Int) : Int :=
  L.foldl
    (fun acc i =>
      match g i with
      | some v => min acc v
      | none => acc)
    init

/-- The `max` accumulation of an `if let Some(v) = g(i)` loop. -/
def foldMax (g : Nat → Option Int) (L : List Nat) (init : Int) : Int :=
  L.foldl
    (fun acc i =>
      match g i with
      | some v => max acc v
      | none => acc)
    init

/-- `min_arrival_time` of the in-edge phase of `reduce_time_windows`. -/
def minInF (I : Instance) (n k : Nat) : Int :=
  foldMin (fun i => (cAt I i k).map fun d => aAt I i + d) (List.range n) (bAt I k)

/-- `max_arrival_time` of the in-edge phase. -/
def maxInF (I : Instance) (n k : Nat) : Int :=
  foldMax (fun i => (cAt I i k).map fun d => bAt I i + d) (List.range n) (aAt I k)

/-- `min_arrival_time` of the out-edge phase. -/
def minOutF (I : Instance) (n k : Nat) : Int :=
  foldMin (fun j => (cAt I k j).map fun d => aAt I j - d) (List.range n) (bAt I k)

/-- `max_arrival_time` of the out-edge phase. -/
def maxOutF (I : Instance) (n k : Nat) : Int :=
  foldMax (fun j => (cAt I k j).map fun d => bAt I j - d) (List.range n) (aAt I k)

/-- One iteration `k` of the `for` loop of
`tsptw::Instance::reduce_time_windows`: the in-edge phase updates `a[k]` and
`b[k]` from the predecessors, then the out-edge phase updates them again
from the successors, reading the values the first phase wrote (`n` is the
node count, captured before the loop). -/
def reduceStep (I : Instance) (k : Nat) : Instance :=
  let n := I.a.length
  let I1 := setB (setA I k (max (aAt I k) (minInF I n k))) k (min (bAt I k) (maxInF I n k))
  setB (setA I1 k (max (aAt I1 k) (minOutF I1 n k))) k (min (bAt I1 k) (maxOutF I1 n k))

/-- `tsptw::Instance::reduce_time_windows` (the mutation part): the loop
over `k in 1..n`.  The `reduced` flag is recovered as a change test, which
is equivalent because each `k` only moves `a[k]` up and `b[k]` down and is
visited once. -/
def reduceTimeWindows (I : Instance) : Instance :=
  (List.range' 1 (I.a.length - 1)).foldl reduceStep I

/-- The `while reduce_time_windows() && delete_edges()` loop of
`tsptw::Instance::simplify`, modelled with explicit fuel: preservation for
every fuel value covers the actual (terminating) execution, whose iteration
count equals some fuel. -/
def simplifyLoop (expensive : Bool) : Nat → Instance → Instance
  | 0, I => I
  | fuel + 1, I =>
    let I1 := reduceTimeWindows I
    if I1.a ≠ I.a ∨ I1.b ≠ I.b then
      let I2 := deleteEdges I1 expensive
      if I2.c ≠ I1.c then simplifyLoop expensive fuel I2 else I2
    else I1

/-- `tsptw::Instance::simplify` with fuel for the `while` loop. -/
def simplify (I : Instance) (expensive : Bool) (fuel : Nat) : Instance :=
  simplifyLoop expensive fuel (deleteEdges I expensive)

theorem aAt_setA (I : Instance) (k : Nat) (v : Int) (x : Nat) :
    aAt (setA I k v) x = if k = x ∧ k < I.a.length then v else aAt I x :=
  getD_set I.a k x v 0

theorem bAt_setA (I : Instance) (k : Nat) (v : Int) : bAt (setA I k v) = bAt I := rfl

theorem cAt_setA (I : Instance) (k : Nat) (v : Int) : cAt (setA I k v) = cAt I := rfl

theorem alen_setA (I : Instance) (k : Nat) (v : Int) :
    (setA I k v).a.length = I.a.length := by
  simp [setA]

theorem bAt_setB (I : Instance) (k : Nat) (v : Int) (x : Nat) :
    bAt (setB I k v) x = if k = x ∧ k < I.b.length then v else bAt I x :=
  getD_set I.b k x v 0

theorem aAt_setB (I : Instance) (k : Nat) (v : Int) : aAt (setB I k v) = aAt I := rfl

theorem cAt_setB (I : Instance) (k : Nat) (v : Int) : cAt (setB I k v) = cAt I := rfl

theorem alen_setB (I : Instance) (k : Nat) (v : Int) :
    (setB I k v).a.length = I.a.length := rfl

theorem blen_setA (I : Instance) (k : Nat) (v : Int) :
    (setA I k v).b.length = I.b.length := rfl

theorem blen_setB (I : Instance) (k : Nat) (v : Int) :
    (setB I k v).b.length = I.b.length := by
  simp [setB]

theorem foldMin_le_init (g : Nat → Option Int) :
    ∀ (L : List Nat) (init : Int), foldMin g L init ≤ init := by
  intro L
  induction L with
  | nil => intro init; exact le_refl init
  | cons x L' ih =>
      intro init
      rw [foldMin, List.foldl_cons]
      cases hg : g x with
      | none => simpa [hg] using ih init
      | some v =>
          have := ih (min init v)
          rw [foldMin] at this
          simp only [hg]
          omega

theorem foldMin_le (g : Nat → Option Int) :
    ∀ (L : List Nat) (init : Int) (i : Nat) (v : Int),
      i ∈ L → g i = some v → foldMin g L init ≤ v := by
  intro L
  induction L with
  | nil => intro init i v hi; exact absurd hi (List.not_mem_nil i)
  | cons x L' ih =>
      intro init i v hi hg
      rw [foldMin, List.foldl_cons]
      rcases List.mem_cons.mp hi with rfl | hi'
      · simp only [hg]
        have h1 := foldMin_le_init g L' (min init v)
        rw [foldMin] at h1
        omega
      · cases hg' : g x with
        | none => simpa [hg'] using ih init i v hi' hg
        | some v' =>
            have := ih (min init v') i v hi' hg
            rw [foldMin] at this
            simp only [hg']
            exact this

theorem foldMax_ge_init (g : Nat → Option Int) :
    ∀ (L : List Nat) (init : Int), init ≤ foldMax g L init := by
  intro L
  induction L with
  | nil => intro init; exact le_refl init
  | cons x L' ih =>
      intro init
      rw [foldMax, List.foldl_cons]
      cases hg : g x with
      | none => simpa [hg] using ih init
      | some v =>
          have := ih (max init v)
          rw [foldMax] at this
          simp only [hg]
          omega

theorem foldMax_ge (g : Nat → Option Int) :
    ∀ (L : List Nat) (init : Int) (i : Nat) (v : Int),
      i ∈ L → g i = some v → v ≤ foldMax g L init := by
  intro L
  induction L with
  | nil => intro init i v hi; exact absurd hi (List.not_mem_nil i)
  | cons x L' ih =>
      intro init i v hi hg
      rw [foldMax, List.foldl_cons]
      rcases List.mem_cons.mp hi with rfl | hi'
      · simp only [hg]
        have h1 := foldMax_ge_init g L' (max init v)
        rw [foldMax] at h1
        omega
      · cases hg' : g x with
        | none => simpa [hg'] using ih init i v hi' hg
        | some v' =>
            have := ih (max init v') i v hi' hg
            rw [foldMax] at this
            simp only [hg']
            exact this

theorem aAt_deleteEdges (I : Instance) (e : Bool) : aAt (deleteEdges I e) = aAt I := rfl

theorem bAt_deleteEdges (I : Instance) (e : Bool) : bAt (deleteEdges I e) = bAt I := rfl

theorem alen_deleteEdges (I : Instance) (e : Bool) :
    (deleteEdges I e).a.length = I.a.length := rfl

/-- Entry access after `deleteEdges`. -/
theorem cAt_deleteEdges (I : Instance) (e : Bool) (i j : Nat) :
    cAt (deleteEdges I e) i j =
      match cAt I i j with
      | none => none
      | some d => if delCond I e i j d then none else some d := by
  show ((mapFrom _ 0 I.c).getD i []).getD j none = _
  rw [getD_mapFrom _ I.c 0 i [] []]
  by_cases hi : i < I.c.length
  · rw [if_pos hi, getD_mapFrom _ (I.c.getD i []) 0 j none none]
    by_cases hj : j < (I.c.getD i []).length
    · rw [if_pos hj, cAt]
      simp
    · rw [if_neg hj, cAt,
        List.getD_eq_default _ _ (show (I.c.getD i []).length ≤ j by omega)]
  · rw [if_neg hi, cAt, List.getD_eq_default _ _ (show I.c.length ≤ i by omega)]
    simp [List.getD]

/-- Raising `a[k]` to `max (a[k]) w` preserves successful validation runs
when `w` is below `a[i] + d` for every in-edge `(i, k, d)`: the raised
opening never exceeds any arrival at `k`, so no time changes.  The
hypothesis `aAt I cur ≤ time` is the loop invariant (for the depot it is
the `GoodInst` condition `a[0] ≤ 0`). -/
theorem transfer_raise_a_in (I : Instance) (k : Nat) (w : Int)
    (hw_in : ∀ i d, i < I.a.length → cAt I i k = some d → w ≤ aAt I i + d) :
    ∀ (l : List Nat) (cur : Nat) (time : Int) (visited : List Nat) (rc : Int)
      (res : Int × Int),
      validateLoop I l time cur visited rc = some res →
      aAt I cur ≤ time →
      (cur = 0 ∨ cur < I.a.length) →
      validateLoop (setA I k (max (aAt I k) w)) l time cur visited rc = some res := by
  intro l
  induction l with
  | nil =>
      intro cur time visited rc res h _ _
      rw [validateLoop] at h
      rw [validateLoop]
      exact h
  | cons nxt rest ih =>
      intro cur time visited rc res h hinv hcur0
      obtain ⟨d, hlt, hnm, hc, hwin, hrec⟩ := validateLoop_cons_elim h
      have hcn : cur < I.a.length := by omega
      have harr : max (time + d) (aAt (setA I k (max (aAt I k) w)) nxt) =
          max (time + d) (aAt I nxt) := by
        rw [aAt_setA]
        by_cases hkx : k = nxt ∧ k < I.a.length
        · rw [if_pos hkx]
          obtain ⟨hke, -⟩ := hkx
          subst hke
          have hwle : w ≤ time + d := le_trans (hw_in cur d hcn hc) (by omega)
          omega
        · rw [if_neg hkx]
      refine validateLoop_cons_intro (by rw [alen_setA]; exact hlt) hnm
        (by rw [cAt_setA]; exact hc) ?_ ?_
      · rw [harr]
        exact hwin
      · rw [harr]
        exact ih nxt (max (time + d) (aAt I nxt)) (nxt :: visited) (rc + d) res
          hrec (by omega) (Or.inr hlt)

/-- Lowering `b[k]` to `min (b[k]) z` preserves successful validation runs
when `z` dominates `b[i] + d` for every in-edge `(i, k, d)` from a node with
a nonempty window, together with `a[k]`: every arrival at `k` stays below
`z`.  The invariants `aAt I cur ≤ time ≤ bAt I cur` hold initially by the
`GoodInst` depot condition. -/
theorem transfer_lower_b_in (I : Instance) (k : Nat) (z : Int)
    (hz : ∀ i d, i < I.a.length → i ≠ k → cAt I i k = some d → aAt I i ≤ bAt I i →
      bAt I i + d ≤ z ∧ aAt I k ≤ z) :
    ∀ (l : List Nat) (cur : Nat) (time : Int) (visited : List Nat) (rc : Int)
      (res : Int × Int),
      validateLoop I l time cur visited rc = some res →
      aAt I cur ≤ time →
      time ≤ bAt I cur →
      (cur = k → k ∈ visited) →
      (cur = 0 ∨ cur < I.a.length) →
      validateLoop (setB I k (min (bAt I k) z)) l time cur visited rc = some res := by
  intro l
  induction l with
  | nil =>
      intro cur time visited rc res h _ _ _ _
      rw [validateLoop] at h
      rw [validateLoop]
      exact h
  | cons nxt rest ih =>
      intro cur time visited rc res h hlo hhi hkv hcur0
      obtain ⟨d, hlt, hnm, hc, hwin, hrec⟩ := validateLoop_cons_elim h
      have hcn : cur < I.a.length := by omega
      have hwin' : max (time + d) (aAt I nxt) ≤ bAt (setB I k (min (bAt I k) z)) nxt := by
        rw [bAt_setB]
        by_cases hkx : k = nxt ∧ k < I.b.length
        · rw [if_pos hkx]
          obtain ⟨hke, -⟩ := hkx
          subst hke
          have hck : cur ≠ k := by
            intro he
            exact hnm (he ▸ hkv he)
          obtain ⟨h1, h2⟩ := hz cur d hcn hck hc (le_trans hlo hhi)
          omega
        · rw [if_neg hkx]
          exact hwin
      refine validateLoop_cons_intro hlt hnm hc hwin' ?_
      exact ih nxt (max (time + d) (aAt I nxt)) (nxt :: visited) (rc + d) res
        hrec (by omega) hwin (fun he => he ▸ List.mem_cons_self _ _) (Or.inr hlt)

/-- Raising `a[k]` to `max (a[k]) w` preserves successful validation runs
(with the same final time and cost) when `w ≤ b[k]` and `w ≤ a[j] - d` for
every out-edge `(k, j, d)`: the run may now wait longer at `k`, but the
next arrival is still dominated by the destination's opening, so the times
re-synchronise one step later.  `k` must not be the last node of the path
(in use, the path ends at the depot and `k ≠ 0`).  The disjunctive
hypothesis is the simulation relation: either the two runs agree on the
current time, or the new run is waiting at `k`. -/
theorem transfer_raise_a_out (I : Instance) (k : Nat) (w : Int)
    (hw_b : w ≤ bAt I k)
    (hw_out : ∀ j d, j < I.a.length → cAt I k j = some d → w ≤ aAt I j - d) :
    ∀ (l : List Nat) (cur : Nat) (time time' : Int) (visited : List Nat)
      (rc : Int) (res : Int × Int),
      validateLoop I l time cur visited rc = some res →
      l.getLast? ≠ some k →
      (time' = time ∨
        (cur = k ∧ k ∈ visited ∧ aAt I k ≤ time ∧ time < time' ∧
          time' = max (aAt I k) w ∧ l ≠ [])) →
      validateLoop (setA I k (max (aAt I k) w)) l time' cur visited rc = some res := by
  intro l
  induction l with
  | nil =>
      intro cur time time' visited rc res h _ hstate
      rcases hstate with rfl | ⟨-, -, -, -, -, hne⟩
      · rw [validateLoop] at h
        rw [validateLoop]
        exact h
      · exact absurd rfl hne
  | cons nxt rest ih =>
      intro cur time time' visited rc res h hlast hstate
      obtain ⟨d, hlt, hnm, hc, hwin, hrec⟩ := validateLoop_cons_elim h
      have hrest_last : rest.getLast? ≠ some k ∨ rest = [] := by
        cases rest with
        | nil => exact Or.inr rfl
        | cons r rs =>
            rw [List.getLast?_cons_cons] at hlast
            exact Or.inl hlast
      rcases hstate with heq | ⟨hcur, hkv, hak, htlt, ht'eq, -⟩
      · -- the two runs agree on the current time
        rw [heq]
        by_cases hkx : k = nxt ∧ k < I.a.length
        · obtain ⟨hke, hklen⟩ := hkx
          subst hke
          have haI' : aAt (setA I k (max (aAt I k) w)) k = max (aAt I k) w := by
            rw [aAt_setA, if_pos ⟨rfl, hklen⟩]
          have hrest_ne : rest ≠ [] := by
            intro he
            subst he
            exact hlast rfl
          have hrl : rest.getLast? ≠ some k := by
            rcases hrest_last with h' | h'
            · exact h'
            · exact absurd h' hrest_ne
          by_cases hwt : w ≤ max (time + d) (aAt I k)
          · -- no extra waiting: the arrival is unchanged
            refine validateLoop_cons_intro (by rw [alen_setA]; exact hlt) hnm
              (by rw [cAt_setA]; exact hc) ?_ ?_
            · rw [haI', bAt_setA]
              omega
            · have harr : max (time + d) (aAt (setA I k (max (aAt I k) w)) k) =
                  max (time + d) (aAt I k) := by
                rw [haI']
                omega
              rw [harr]
              exact ih k (max (time + d) (aAt I k)) (max (time + d) (aAt I k))
                (k :: visited) (rc + d) res hrec hrl (Or.inl rfl)
          · -- the new run waits at k until `max (a[k]) w = w`
            push_neg at hwt
            refine validateLoop_cons_intro (by rw [alen_setA]; exact hlt) hnm
              (by rw [cAt_setA]; exact hc) ?_ ?_
            · rw [haI', bAt_setA]
              omega
            · have harr : max (time + d) (aAt (setA I k (max (aAt I k) w)) k) =
                  max (aAt I k) w := by
                rw [haI']
                omega
              rw [harr]
              exact ih k (max (time + d) (aAt I k)) (max (aAt I k) w)
                (k :: visited) (rc + d) res hrec hrl
                (Or.inr ⟨rfl, List.mem_cons_self _ _, by omega, by omega, rfl,
                  hrest_ne⟩)
        · -- the raised node is not the one being entered
          have haI' : aAt (setA I k (max (aAt I k) w)) nxt = aAt I nxt := by
            rw [aAt_setA, if_neg hkx]
          refine validateLoop_cons_intro (by rw [alen_setA]; exact hlt) hnm
            (by rw [cAt_setA]; exact hc) ?_ ?_
          · rw [haI']
            exact hwin
          · rw [haI']
            have hrl : rest.getLast? ≠ some k := by
              rcases hrest_last with h' | h'
              · exact h'
              · subst h'
                simp
            exact ih nxt (max (time + d) (aAt I nxt)) (max (time + d) (aAt I nxt))
              (nxt :: visited) (rc + d) res hrec hrl (Or.inl rfl)
      · -- the new run is waiting at `cur = k`; it re-synchronises at `nxt`
        have hnk : nxt ≠ k := fun he => hnm (he ▸ hkv)
        have hck : cAt I k nxt = some d := by rw [← hcur]; exact hc
        have haI' : aAt (setA I k (max (aAt I k) w)) nxt = aAt I nxt := by
          rw [aAt_setA, if_neg (fun hp => hnk hp.1.symm)]
        have ht'w : time' = w := by omega
        have hwd := hw_out nxt d hlt hck
        have harr1 : max (time' + d) (aAt I nxt) = aAt I nxt := by omega
        have harr0 : max (time + d) (aAt I nxt) = aAt I nxt := by omega
        have hrl : rest.getLast? ≠ some k := by
          rcases hrest_last with h' | h'
          · exact h'
          · subst h'
            simp
        refine validateLoop_cons_intro (by rw [alen_setA]; exact hlt) hnm
          (by rw [cAt_setA]; exact hc) ?_ ?_
        · rw [haI', harr1, ← harr0]
          exact hwin
        · rw [haI', harr1, ← harr0]
          exact ih nxt (max (time + d) (aAt I nxt)) (max (time + d) (aAt I nxt))
            (nxt :: visited) (rc + d) res hrec hrl (Or.inl rfl)

/-- Lowering `b[k]` to `min (b[k]) z` preserves successful validation runs
when `z` dominates `b[j] - d` for every out-edge `(k, j, d)` to a node other
than `k`: the arrival at `k` is bounded through the window of the next node
of the run.  `k` must not be the last node of the path. -/
theorem transfer_lower_b_out (I : Instance) (k : Nat) (z : Int)
    (hz_out : ∀ j d, j < I.a.length → j ≠ k → cAt I k j = some d → bAt I j - d ≤ z) :
    ∀ (l : List Nat) (cur : Nat) (time : Int) (visited : List Nat) (rc : Int)
      (res : Int × Int),
      validateLoop I l time cur visited rc = some res →
      l.getLast? ≠ some k →
      (cur = k → k ∈ visited) →
      validateLoop (setB I k (min (bAt I k) z)) l time cur visited rc = some res := by
  intro l
  induction l with
  | nil =>
      intro cur time visited rc res h _ _
      rw [validateLoop] at h
      rw [validateLoop]
      exact h
  | cons nxt rest ih =>
      intro cur time visited rc res h hlast hkv
      obtain ⟨d, hlt, hnm, hc, hwin, hrec⟩ := validateLoop_cons_elim h
      have hwin' : max (time + d) (aAt I nxt) ≤ bAt (setB I k (min (bAt I k) z)) nxt := by
        rw [bAt_setB]
        by_cases hkx : k = nxt ∧ k < I.b.length
        · rw [if_pos hkx]
          obtain ⟨hke, -⟩ := hkx
          subst hke
          cases rest with
          | nil => exact absurd hlast (by simp)
          | cons j rs =>
              obtain ⟨d2, hlt2, hnm2, hc2, hwin2, -⟩ := validateLoop_cons_elim hrec
              have hjk : j ≠ k := fun he => hnm2 (he ▸ List.mem_cons_self _ _)
              have := hz_out j d2 hlt2 hjk hc2
              omega
        · rw [if_neg hkx]
          exact hwin
      refine validateLoop_cons_intro hlt hnm hc hwin' ?_
      have hrl : rest.getLast? ≠ some k := by
        cases rest with
        | nil => simp
        | cons r rs =>
            rw [List.getLast?_cons_cons] at hlast
            exact hlast
      exact ih nxt (max (time + d) (aAt I nxt)) (nxt :: visited) (rc + d) res
        hrec hrl (fun he => he ▸ List.mem_cons_self _ _)

/-- A successful run only processes in-range, pairwise distinct, unvisited
nodes. -/
theorem validateLoop_visits (I : Instance) :
    ∀ (l : List Nat) (cur : Nat) (time : Int) (visited : List Nat) (rc : Int)
      (res : Int × Int),
      validateLoop I l time cur visited rc = some res →
      (∀ x ∈ l, x < I.a.length ∧ x ∉ visited) ∧ l.Nodup := by
  intro l
  induction l with
  | nil => intro cur time visited rc res h; simp
  | cons nxt rest ih =>
      intro cur time visited rc res h
      obtain ⟨d, hlt, hnm, hc, hwin, hrec⟩ := validateLoop_cons_elim h
      obtain ⟨hall, hnd⟩ := ih _ _ _ _ _ hrec
      constructor
      · intro x hx
        rcases List.mem_cons.mp hx with rfl | hx'
        · exact ⟨hlt, hnm⟩
        · exact ⟨(hall x hx').1,
            fun hxv => (hall x hx').2 (List.mem_cons_of_mem _ hxv)⟩
      · refine List.nodup_cons.mpr ⟨?_, hnd⟩
        intro hmem
        exact (hall nxt hmem).2 (List.mem_cons_self _ _)

/-- A nodup list of `n` naturals below `n` contains every natural below
`n`. -/
theorem mem_of_nodup_length (n : Nat) (l : List Nat) (hnd : l.Nodup)
    (hlen : l.length = n) (hlt : ∀ x ∈ l, x < n) : ∀ x, x < n → x ∈ l := by
  intro x hx
  have hsub : l.toFinset ⊆ Finset.range n := by
    intro y hy
    simp only [Finset.mem_range]
    exact hlt y (List.mem_toFinset.mp hy)
  have hcard : l.toFinset.card = n := by
    rw [List.toFinset_card_of_nodup hnd, hlen]
  have heq : l.toFinset = Finset.range n :=
    Finset.eq_of_subset_of_card_le hsub (by simp [hcard])
  have : x ∈ l.toFinset := by
    rw [heq]
    simpa using hx
  exact List.mem_toFinset.mp this

/-- With nonnegative distances, time is monotone, so every node still to be
visited has its window closing no earlier than the current time. -/
theorem validateLoop_future_b (I : Instance)
    (hd : ∀ i j d, i < I.a.length → j < I.a.length → cAt I i j = some d → 0 ≤ d) :
    ∀ (l : List Nat) (cur : Nat) (time : Int) (visited : List Nat) (rc : Int)
      (res : Int × Int),
      validateLoop I l time cur visited rc = some res →
      (cur = 0 ∨ cur < I.a.length) →
      ∀ y ∈ l, time ≤ bAt I y := by
  intro l
  induction l with
  | nil => intro cur time visited rc res h _ y hy; exact absurd hy (List.not_mem_nil y)
  | cons nxt rest ih =>
      intro cur time visited rc res h hcur0 y hy
      obtain ⟨d, hlt, hnm, hc, hwin, hrec⟩ := validateLoop_cons_elim h
      have hcn : cur < I.a.length := by omega
      have hd0 : 0 ≤ d := hd cur nxt d hcn hlt hc
      rcases List.mem_cons.mp hy with rfl | hy'
      · omega
      · have := ih nxt (max (time + d) (aAt I nxt)) (nxt :: visited) (rc + d)
          res hrec (Or.inr hlt) y hy'
        omega

/-- `deleteEdges` preserves successful validation runs: the cheap rule never
deletes an edge a feasible run uses (its source is left no earlier than its
opening, so the deletion premise contradicts the destination's window), and
the expensive rule's separating node `k` is either already visited (so
`a[k] ≤ time ≤ b[cur]`) or still to come (so `b[k] ≥ time' ≥ a[nxt]`),
contradicting the rule's premise either way. -/
theorem transfer_deleteEdges (I : Instance) (exp : Bool)
    (hd : exp = true →
      ∀ i j d, i < I.a.length → j < I.a.length → cAt I i j = some d → 0 ≤ d) :
    ∀ (l : List Nat) (cur : Nat) (time : Int) (visited : List Nat) (rc : Int)
      (res : Int × Int),
      validateLoop I l time cur visited rc = some res →
      aAt I cur ≤ time →
      time ≤ bAt I cur →
      (cur = 0 ∨ cur < I.a.length) →
      (exp = true → ∀ x ∈ visited, aAt I x ≤ time) →
      (∀ x, 1 ≤ x → x < I.a.length → x ∈ visited ∨ x ∈ l) →
      validateLoop (deleteEdges I exp) l time cur visited rc = some res := by
  intro l
  induction l with
  | nil =>
      intro cur time visited rc res h _ _ _ _ _
      rw [validateLoop] at h
      rw [validateLoop]
      exact h
  | cons nxt rest ih =>
      intro cur time visited rc res h hlo hhi hcur0 hvis hcov
      obtain ⟨d, hlt, hnm, hc, hwin, hrec⟩ := validateLoop_cons_elim h
      have hcn : cur < I.a.length := by omega
      have hcheap : decide (aAt I cur + d > bAt I nxt) = false :=
        decide_eq_false (by omega)
      have hexp2 : (exp && decide (cur ≠ 0) && decide (nxt ≠ 0) &&
          (List.range' 1 (I.a.length - 1)).any fun x =>
            decide (bAt I cur < aAt I x) && decide (bAt I x < aAt I nxt)) = false := by
        cases hexp : exp with
        | false => rfl
        | true =>
            have hany : ((List.range' 1 (I.a.length - 1)).any fun x =>
                decide (bAt I cur < aAt I x) && decide (bAt I x < aAt I nxt)) = false := by
              rw [List.any_eq_false]
              intro x hx
              rw [List.mem_range'_1] at hx
              have hxn : x < I.a.length := by omega
              rcases hcov x (by omega) hxn with hv | hl
              · have hax := hvis hexp x hv
                have : ¬(bAt I cur < aAt I x) := by omega
                simp [this]
              · rcases List.mem_cons.mp hl with rfl | hr
                · have : ¬(bAt I x < aAt I x) := by omega
                  simp [this]
                · have hfb := validateLoop_future_b I (hd hexp) rest nxt
                    (max (time + d) (aAt I nxt)) (nxt :: visited) (rc + d) res
                    hrec (Or.inr hlt) x hr
                  have : ¬(bAt I x < aAt I nxt) := by omega
                  simp [this]
            rw [hany]
            simp
      have hdc : delCond I exp cur nxt d = false := by
        rw [delCond, hcheap, hexp2]
        rfl
      have hc' : cAt (deleteEdges I exp) cur nxt = some d := by
        rw [cAt_deleteEdges, hc]
        show (if delCond I exp cur nxt d then none else some d) = some d
        rw [hdc]
        simp
      refine validateLoop_cons_intro hlt hnm hc' hwin ?_
      refine ih nxt (max (time + d) (aAt I nxt)) (nxt :: visited) (rc + d) res
        hrec (by omega) hwin (Or.inr hlt) ?_ ?_
      · intro hexp x hx
        have hd0 : 0 ≤ d := hd hexp cur nxt d hcn hlt hc
        rcases List.mem_cons.mp hx with rfl | hx'
        · omega
        · have := hvis hexp x hx'
          omega
      · intro x hx1 hxn
        rcases hcov x hx1 hxn with hv | hl
        · exact Or.inl (List.mem_cons_of_mem _ hv)
        · rcases List.mem_cons.mp hl with rfl | hr
          · exact Or.inl (List.mem_cons_self _ _)
          · exact Or.inr hr

/-- Lift a run-level transfer to `validate_inner`: if every successful run
of the loop transfers to `I'` with the same final time and cost, and the
node count is unchanged, acceptance transfers. -/
theorem validate_inner_mono (I I' : Instance) (hlen : I'.a.length = I.a.length)
    (htr : ∀ (tour : List Nat) (T R : Int), tour.length = I.a.length - 1 →
      validateLoop I (tour ++ [0]) 0 0 [] 0 = some (T, R) →
      validateLoop I' (tour ++ [0]) 0 0 [] 0 = some (T, R)) :
    ∀ (tour : List Nat) (cost : Int) (ms : Bool),
      validate_inner I tour cost ms = true → validate_inner I' tour cost ms = true := by
  intro tour cost ms h
  rw [validate_inner] at h
  rw [validate_inner]
  by_cases hlen2 : tour.length = I.a.length - 1
  · rw [if_neg (by omega)] at h
    rw [if_neg (by rw [hlen]; omega)]
    cases hm : validateLoop I (tour ++ [0]) 0 0 [] 0 with
    | none => rw [hm] at h; exact absurd h (by simp)
    | some p =>
        obtain ⟨T, R⟩ := p
        rw [hm] at h
        rw [htr tour T R hlen2 hm]
        exact h
  · rw [if_pos (by omega)] at h
    exact absurd h (by simp)

theorem reduceStep_cAt (I : Instance) (k : Nat) : cAt (reduceStep I k) = cAt I := rfl

theorem reduceStep_alen (I : Instance) (k : Nat) :
    (reduceStep I k).a.length = I.a.length := by
  show (setB (setA (setB (setA I k _) k _) k _) k _).a.length = I.a.length
  rw [alen_setB, alen_setA, alen_setB, alen_setA]

theorem reduceStep_blen (I : Instance) (k : Nat) :
    (reduceStep I k).b.length = I.b.length := by
  show (setB (setA (setB (setA I k _) k _) k _) k _).b.length = I.b.length
  rw [blen_setB, blen_setA, blen_setB, blen_setA]

theorem reduceStep_a0 (I : Instance) (k : Nat) (hk0 : k ≠ 0) :
    aAt (reduceStep I k) 0 = aAt I 0 := by
  show aAt (setB (setA (setB (setA I k _) k _) k _) k _) 0 = aAt I 0
  rw [aAt_setB, aAt_setA, if_neg (fun hp => hk0 hp.1), aAt_setB, aAt_setA,
    if_neg (fun hp => hk0 hp.1)]

theorem reduceStep_b0 (I : Instance) (k : Nat) (hk0 : k ≠ 0) :
    bAt (reduceStep I k) 0 = bAt I 0 := by
  show bAt (setB (setA (setB (setA I k _) k _) k _) k _) 0 = bAt I 0
  rw [bAt_setB, if_neg (fun hp => hk0 hp.1), bAt_setA, bAt_setB,
    if_neg (fun hp => hk0 hp.1), bAt_setA]

/-- The in-edge phase of `reduce_time_windows` (raise `a[k]`, lower `b[k]`
from the predecessors) preserves acceptance. -/
theorem reduce_phase1_preserves (J : Instance) (k : Nat) (hk1 : 1 ≤ k)
    (hk : k < J.a.length) (ha0 : aAt J 0 ≤ 0) (hb0 : 0 ≤ bAt J 0) (n : Nat)
    (hn : n = J.a.length) :
    ∀ (tour : List Nat) (cost : Int) (ms : Bool),
      validate_inner J tour cost ms = true →
      validate_inner
        (setB (setA J k (max (aAt J k) (minInF J n k))) k
          (min (bAt J k) (maxInF J n k))) tour cost ms = true := by
  subst hn
  intro tour cost ms h
  have h1 : validate_inner (setA J k (max (aAt J k) (minInF J J.a.length k)))
      tour cost ms = true := by
    refine validate_inner_mono J _ (by rw [alen_setA]) ?_ tour cost ms h
    intro tour' T R hlen hm
    refine transfer_raise_a_in J k (minInF J J.a.length k) ?_ _ 0 0 [] 0 (T, R)
      hm ha0 (Or.inl rfl)
    intro i d hi hc
    refine foldMin_le _ (List.range J.a.length) (bAt J k) i (aAt J i + d)
      (List.mem_range.mpr hi) ?_
    rw [hc]
    rfl
  refine validate_inner_mono (setA J k (max (aAt J k) (minInF J J.a.length k))) _
    (by rw [alen_setB, alen_setA]) ?_ tour cost ms h1
  intro tour' T R hlen hm
  have ha0' : aAt (setA J k (max (aAt J k) (minInF J J.a.length k))) 0 ≤ 0 := by
    rw [aAt_setA, if_neg (fun hp => by omega)]
    exact ha0
  have hb0' : (0 : Int) ≤ bAt (setA J k (max (aAt J k) (minInF J J.a.length k))) 0 := hb0
  refine transfer_lower_b_in _ k (maxInF J J.a.length k) ?_ _ 0 0 [] 0 (T, R)
    hm ha0' hb0' (fun he => absurd he.symm (by omega)) (Or.inl rfl)
  intro i d hi hik hc hab
  have hi' : i < J.a.length := by rwa [alen_setA] at hi
  have hcJ : cAt J i k = some d := hc
  have haJ : aAt (setA J k (max (aAt J k) (minInF J J.a.length k))) i = aAt J i := by
    rw [aAt_setA, if_neg (fun hp => hik hp.1.symm)]
  have hbJ : bAt (setA J k (max (aAt J k) (minInF J J.a.length k))) i = bAt J i := rfl
  rw [haJ, hbJ] at hab
  constructor
  · show bAt J i + d ≤ maxInF J J.a.length k
    refine foldMax_ge _ (List.range J.a.length) (aAt J k) i (bAt J i + d)
      (List.mem_range.mpr hi') ?_
    rw [hcJ]
    rfl
  · have h1' : aAt J k ≤ maxInF J J.a.length k := foldMax_ge_init _ _ _
    have h2' : minInF J J.a.length k ≤ aAt J i + d := by
      refine foldMin_le _ (List.range J.a.length) (bAt J k) i (aAt J i + d)
        (List.mem_range.mpr hi') ?_
      rw [hcJ]
      rfl
    have h3' : bAt J i + d ≤ maxInF J J.a.length k := by
      refine foldMax_ge _ (List.range J.a.length) (aAt J k) i (bAt J i + d)
        (List.mem_range.mpr hi') ?_
      rw [hcJ]
      rfl
    rw [aAt_setA, if_pos ⟨rfl, hk⟩]
    omega

/-- The out-edge phase of `reduce_time_windows` (raise `a[k]`, lower `b[k]`
from the successors) preserves acceptance. -/
theorem reduce_phase2_preserves (J : Instance) (k : Nat) (hk1 : 1 ≤ k) (n : Nat)
    (hn : n = J.a.length) :
    ∀ (tour : List Nat) (cost : Int) (ms : Bool),
      validate_inner J tour cost ms = true →
      validate_inner
        (setB (setA J k (max (aAt J k) (minOutF J n k))) k
          (min (bAt J k) (maxOutF J n k))) tour cost ms = true := by
  subst hn
  intro tour cost ms h
  have hlast : ∀ tour' : List Nat, (tour' ++ [0]).getLast? ≠ some k := by
    intro tour' hlast
    rw [List.getLast?_concat] at hlast
    have : (0 : Nat) = k := by
      injection hlast
    omega
  have h1 : validate_inner (setA J k (max (aAt J k) (minOutF J J.a.length k)))
      tour cost ms = true := by
    refine validate_inner_mono J _ (by rw [alen_setA]) ?_ tour cost ms h
    intro tour' T R hlen hm
    refine transfer_raise_a_out J k (minOutF J J.a.length k)
      (foldMin_le_init _ _ _) ?_ _ 0 0 0 [] 0 (T, R) hm (hlast tour') (Or.inl rfl)
    intro j d hj hc
    refine foldMin_le _ (List.range J.a.length) (bAt J k) j (aAt J j - d)
      (List.mem_range.mpr hj) ?_
    rw [hc]
    rfl
  refine validate_inner_mono (setA J k (max (aAt J k) (minOutF J J.a.length k))) _
    (by rw [alen_setB, alen_setA]) ?_ tour cost ms h1
  intro tour' T R hlen hm
  refine transfer_lower_b_out _ k (maxOutF J J.a.length k) ?_ _ 0 0 [] 0 (T, R)
    hm (hlast tour') (fun he => absurd he.symm (by omega))
  intro j d hj hjk hc
  have hj' : j < J.a.length := by rwa [alen_setA] at hj
  have hcJ : cAt J k j = some d := hc
  show bAt J j - d ≤ maxOutF J J.a.length k
  refine foldMax_ge _ (List.range J.a.length) (aAt J k) j (bAt J j - d)
    (List.mem_range.mpr hj') ?_
  rw [hcJ]
  rfl

/-- One `reduce_time_windows` iteration preserves acceptance. -/
theorem reduceStep_inner_preserves (I : Instance) (k : Nat) (hk1 : 1 ≤ k)
    (hk : k < I.a.length) (ha0 : aAt I 0 ≤ 0) (hb0 : 0 ≤ bAt I 0) :
    ∀ (tour : List Nat) (cost : Int) (ms : Bool),
      validate_inner I tour cost ms = true →
      validate_inner (reduceStep I k) tour cost ms = true := by
  intro tour cost ms h
  have h1 := reduce_phase1_preserves I k hk1 hk ha0 hb0 I.a.length rfl tour cost ms h
  have hI1len : (setB (setA I k (max (aAt I k) (minInF I I.a.length k))) k
      (min (bAt I k) (maxInF I I.a.length k))).a.length = I.a.length := by
    rw [alen_setB, alen_setA]
  exact reduce_phase2_preserves _ k hk1 I.a.length hI1len.symm tour cost ms h1

/-- Folding `reduceStep` over in-range nonzero indices preserves acceptance
and leaves the depot window, the node count and the distance matrix
unchanged. -/
theorem foldl_reduceStep_facts :
    ∀ (ks : List Nat) (I : Instance), (∀ k ∈ ks, 1 ≤ k ∧ k < I.a.length) →
      aAt I 0 ≤ 0 → 0 ≤ bAt I 0 →
      (∀ (tour : List Nat) (cost : Int) (ms : Bool),
        validate_inner I tour cost ms = true →
        validate_inner (ks.foldl reduceStep I) tour cost ms = true) ∧
      aAt (ks.foldl reduceStep I) 0 = aAt I 0 ∧
      bAt (ks.foldl reduceStep I) 0 = bAt I 0 ∧
      (ks.foldl reduceStep I).a.length = I.a.length ∧
      cAt (ks.foldl reduceStep I) = cAt I := by
  intro ks
  induction ks with
  | nil => intro I _ _ _; exact ⟨fun _ _ _ h => h, rfl, rfl, rfl, rfl⟩
  | cons k ks' ih =>
      intro I hks ha0 hb0
      obtain ⟨hk1, hklt⟩ := hks k (List.mem_cons_self _ _)
      have hstep := reduceStep_inner_preserves I k hk1 hklt ha0 hb0
      have hk0 : k ≠ 0 := by omega
      have ha0' : aAt (reduceStep I k) 0 ≤ 0 := by
        rw [reduceStep_a0 I k hk0]; exact ha0
      have hb0' : (0 : Int) ≤ bAt (reduceStep I k) 0 := by
        rw [reduceStep_b0 I k hk0]; exact hb0
      have hks' : ∀ k' ∈ ks', 1 ≤ k' ∧ k' < (reduceStep I k).a.length := by
        intro k' hk'
        rw [reduceStep_alen]
        exact hks k' (List.mem_cons_of_mem _ hk')
      obtain ⟨hpres, hA, hB, hL, hC⟩ := ih (reduceStep I k) hks' ha0' hb0'
      rw [List.foldl_cons]
      refine ⟨fun tour cost ms h => hpres tour cost ms (hstep tour cost ms h),
        ?_, ?_, ?_, ?_⟩
      · rw [hA, reduceStep_a0 I k hk0]
      · rw [hB, reduceStep_b0 I k hk0]
      · rw [hL, reduceStep_alen]
      · rw [hC]
        exact reduceStep_cAt I k

/-- `reduce_time_windows` preserves acceptance and the depot window. -/
theorem reduceTW_facts (I : Instance) (ha0 : aAt I 0 ≤ 0) (hb0 : 0 ≤ bAt I 0) :
    (∀ (tour : List Nat) (cost : Int) (ms : Bool),
      validate_inner I tour cost ms = true →
      validate_inner (reduceTimeWindows I) tour cost ms = true) ∧
    aAt (reduceTimeWindows I) 0 = aAt I 0 ∧
    bAt (reduceTimeWindows I) 0 = bAt I 0 ∧
    (reduceTimeWindows I).a.length = I.a.length ∧
    cAt (reduceTimeWindows I) = cAt I := by
  unfold reduceTimeWindows
  refine foldl_reduceStep_facts (List.range' 1 (I.a.length - 1)) I ?_ ha0 hb0
  intro k hk
  rw [List.mem_range'_1] at hk
  omega

/-- Edges surviving `deleteEdges` are edges of the original instance. -/
theorem cAt_deleteEdges_sub (I : Instance) (e : Bool) (i j : Nat) (d : Int)
    (h : cAt (deleteEdges I e) i j = some d) : cAt I i j = some d := by
  rw [cAt_deleteEdges] at h
  cases hc : cAt I i j with
  | none => rw [hc] at h; exact Option.noConfusion h
  | some d0 =>
      rw [hc] at h
      have h' : (if delCond I e i j d0 then none else some d0) = some d := h
      by_cases hdc : delCond I e i j d0 = true
      · rw [if_pos hdc] at h'; exact Option.noConfusion h'
      · rw [if_neg hdc] at h'
        exact h'

/-- `delete_edges` preserves acceptance. -/
theorem deleteEdges_inner_preserves (I : Instance) (exp : Bool)
    (ha0 : aAt I 0 ≤ 0) (hb0 : 0 ≤ bAt I 0)
    (hd : exp = true →
      ∀ i j d, i < I.a.length → j < I.a.length → cAt I i j = some d → 0 ≤ d) :
    ∀ (tour : List Nat) (cost : Int) (ms : Bool),
      validate_inner I tour cost ms = true →
      validate_inner (deleteEdges I exp) tour cost ms = true := by
  refine validate_inner_mono I _ (alen_deleteEdges I exp) ?_
  intro tour T R hlen hm
  obtain ⟨hall, hnd⟩ := validateLoop_visits I _ _ _ _ _ _ hm
  have h0mem : (0 : Nat) ∈ tour ++ [0] := by simp
  have hn1 : 1 ≤ I.a.length := by
    have := (hall 0 h0mem).1
    omega
  have hlenl : (tour ++ [0]).length = I.a.length := by
    rw [List.length_append]
    simp only [List.length_singleton]
    omega
  have hcov : ∀ x, 1 ≤ x → x < I.a.length → x ∈ ([] : List Nat) ∨ x ∈ tour ++ [0] := by
    intro x _ hx
    exact Or.inr (mem_of_nodup_length I.a.length _ hnd hlenl
      (fun y hy => (hall y hy).1) x hx)
  exact transfer_deleteEdges I exp hd _ 0 0 [] 0 (T, R) hm ha0 hb0 (Or.inl rfl)
    (fun _ x hx => absurd hx (List.not_mem_nil x)) hcov

/-- The conditions under which `simplify` is validity-preserving: the depot
window contains time 0, and (for the expensive detection) all present
distances are nonnegative. -/
def GoodInst (I : Instance) (exp : Bool) : Prop :=
  aAt I 0 ≤ 0 ∧ 0 ≤ bAt I 0 ∧
    (exp = true → ∀ i, i < I.a.length → ∀ j, j < I.a.length →
      0 ≤ (cAt I i j).getD 0)

theorem GoodInst.dist_nonneg {I : Instance} {exp : Bool} (hg : GoodInst I exp) :
    exp = true →
    ∀ i j d, i < I.a.length → j < I.a.length → cAt I i j = some d → 0 ≤ d := by
  intro hexp i j d hi hj hc
  have := hg.2.2 hexp i hi j hj
  rw [hc] at this
  exact this

theorem GoodInst_deleteEdges {I : Instance} {exp : Bool} (hg : GoodInst I exp) :
    GoodInst (deleteEdges I exp) exp := by
  refine ⟨hg.1, hg.2.1, ?_⟩
  intro hexp i hi j hj
  cases hc : cAt (deleteEdges I exp) i j with
  | none => simp
  | some d =>
      have hsub := cAt_deleteEdges_sub I exp i j d hc
      have h2 := hg.2.2 hexp i (by rwa [alen_deleteEdges] at hi) j
        (by rwa [alen_deleteEdges] at hj)
      rw [hsub] at h2
      exact h2

theorem GoodInst_reduceTW {I : Instance} {exp : Bool} (hg : GoodInst I exp) :
    GoodInst (reduceTimeWindows I) exp := by
  obtain ⟨-, hA, hB, hL, hC⟩ := reduceTW_facts I hg.1 hg.2.1
  refine ⟨by rw [hA]; exact hg.1, by rw [hB]; exact hg.2.1, ?_⟩
  intro hexp i hi j hj
  rw [hC]
  exact hg.2.2 hexp i (by rwa [hL] at hi) j (by rwa [hL] at hj)

/-- The fuel-indexed `simplify` loop preserves acceptance. -/
theorem simplifyLoop_preserves (exp : Bool) :
    ∀ (fuel : Nat) (I : Instance), GoodInst I exp →
      ∀ (tour : List Nat) (cost : Int) (ms : Bool),
        validate_inner I tour cost ms = true →
        validate_inner (simplifyLoop exp fuel I) tour cost ms = true := by
  intro fuel
  induction fuel with
  | zero => intro I _ tour cost ms h; exact h
  | succ fuel ih =>
      intro I hg tour cost ms h
      simp only [simplifyLoop]
      obtain ⟨hf, -, -, -, -⟩ := reduceTW_facts I hg.1 hg.2.1
      have h1 := hf tour cost ms h
      have hg1 : GoodInst (reduceTimeWindows I) exp := GoodInst_reduceTW hg
      by_cases hflag : (reduceTimeWindows I).a ≠ I.a ∨ (reduceTimeWindows I).b ≠ I.b
      · rw [if_pos hflag]
        have h2 := deleteEdges_inner_preserves (reduceTimeWindows I) exp hg1.1
          hg1.2.1 (GoodInst.dist_nonneg hg1) tour cost ms h1
        have hg2 := GoodInst_deleteEdges hg1
        by_cases hflag2 : (deleteEdges (reduceTimeWindows I) exp).c ≠ (reduceTimeWindows I).c
        · rw [if_pos hflag2]
          exact ih _ hg2 tour cost ms h2
        · rw [if_neg hflag2]
          exact h2
      · rw [if_neg hflag]
        exact h1

/-- C8 (amended): on well-formed instances whose depot window contains
time 0 (`a[0] ≤ 0 ≤ b[0]`) and, when expensive detection is used, whose
present distances are all nonnegative, `simplify` (edge deletion and
time-window reduction, any number of loop iterations) never rejects a
previously accepted tour or changes its accepted cost or makespan. -/
theorem simplify_preserves_validate :
    ∀ (I : Instance) (exp : Bool) (fuel : Nat) (tour : List Nat) (cost : Int),
      WF I → GoodInst I exp →
      (validate I tour cost = true → validate (simplify I exp fuel) tour cost = true) ∧
      (validate_makespan I tour cost = true →
        validate_makespan (simplify I exp fuel) tour cost = true) := by
  intro I exp fuel tour cost _ hg
  have hg' : GoodInst (deleteEdges I exp) exp := GoodInst_deleteEdges hg
  have hdel := deleteEdges_inner_preserves I exp hg.1 hg.2.1 (GoodInst.dist_nonneg hg)
  constructor
  · intro h
    exact simplifyLoop_preserves exp fuel _ hg' tour cost false (hdel tour cost false h)
  · intro h
    exact simplifyLoop_preserves exp fuel _ hg' tour cost true (hdel tour cost true h)

/-- An instance whose depot opens strictly after time 0: the tour `[1]` is
feasible (the run leaves the depot at time 0, before its window opens), but
cheap edge deletion removes the edge `0 → 1` because
`a[0] + d = 5 + 3 > 3 = b[1]`. -/
def badInstance : Instance := ⟨[5, 0], [100, 3], [[none, some 3], [some 3, none]]⟩

/-- C8 counterexample: `simplify` (here: one `delete_edges` pass followed by
the loop, which terminates after one iteration) rejects a tour that
`validate` accepted before simplification. -/
theorem simplify_not_always_preserving :
    validate badInstance [1] 6 = true ∧
    validate (simplify badInstance false 1) [1] 6 = false := by
  constructor
  · decide
  · decide

theorem simplify_preserves_validate_witness :
    (WF waitInstance ∧ GoodInst waitInstance true) ∧
    validate (simplify waitInstance true 2) [1] 6 = true :=
  ⟨⟨⟨rfl, rfl, by decide⟩, ⟨by decide, by decide, fun _ => by decide⟩⟩,
    (simplify_preserves_validate waitInstance true 2 [1] 6 ⟨rfl, rfl, by decide⟩
      ⟨by decide, by decide, fun _ => by decide⟩).1 (by decide)⟩

end Tsptw
